import Mathlib

/-!
Shallow embedding of the computational core of a Pascal-triangle visualizer
(src/app.js): binomial-coefficient computation, table generation, primality
testing, pattern-cell extraction and binomial-expansion term derivation.

JavaScript numbers are embedded as exact rationals (ℚ): the source divides at
every loop step (`result = result * (n - i + 1) / i`), so intermediate values
are rational; the claims are stated for exact arithmetic.
-/

/-- Embeds `combination(n, k)` from src/app.js lines 358-368:
`if (k === 0 || k === n) return 1;` then the loop
`for (let i = 1; i <= k; i++) result = result * (n - i + 1) / i;`.
The loop over `i = 1..k` is the left fold over `List.range' 1 k`. -/
def combination (n k : Nat) : ℚ :=
  if k = 0 ∨ k = n then 1
  else (List.range' 1 k).foldl
    (fun (result : ℚ) (i : Nat) => result * ((n : ℚ) - (i : ℚ) + 1) / (i : ℚ)) 1

/-- Embeds `generatePascalTriangle(rows)` from src/app.js lines 375-387:
`for (let n = 0; n < rows; n++) for (let k = 0; k <= n; k++)
  triangle[n][k] = combination(n, k);`. -/
def generatePascalTriangle (rows : Nat) : List (List ℚ) :=
  (List.range rows).map (fun n => (List.range (n + 1)).map (fun k => combination n k))

/-- The running product after the first `j` loop iterations of `combination n _`
equals the binomial coefficient `C(n, j)`, for `j ≤ n`. -/
theorem combination_foldl_eq_choose (n : Nat) :
    ∀ j : Nat, j ≤ n →
      (List.range' 1 j).foldl
        (fun (result : ℚ) (i : Nat) => result * ((n : ℚ) - (i : ℚ) + 1) / (i : ℚ)) 1
        = (n.choose j : ℚ) := by
  intro j
  induction j with
  | zero => intro _; simp
  | succ j ih =>
    intro hj
    have hj' : j ≤ n := Nat.le_of_succ_le hj
    rw [List.range'_concat, List.foldl_append, ih hj']
    simp only [List.foldl_cons, List.foldl_nil, one_mul]
    have hcast : ((n - j : Nat) : ℚ) = (n : ℚ) - (j : ℚ) := by
      push_cast [hj']
      ring
    have hkey : (n.choose (j + 1) : ℚ) * ((j : ℚ) + 1)
        = (n.choose j : ℚ) * ((n : ℚ) - (j : ℚ)) := by
      rw [← hcast]
      exact_mod_cast congrArg (Nat.cast : Nat → ℚ) (Nat.choose_succ_right_eq n j)
    have hne : ((1 + j : Nat) : ℚ) ≠ 0 := by
      push_cast
      positivity
    rw [div_eq_iff hne]
    push_cast at hkey ⊢
    linarith [hkey]

/-- `combination n k` equals the binomial coefficient `C(n, k)` whenever `k ≤ n`. -/
theorem combination_eq_choose (n k : Nat) (hk : k ≤ n) :
    combination n k = (n.choose k : ℚ) := by
  unfold combination
  by_cases h0 : k = 0 ∨ k = n
  · rcases h0 with h | h <;> subst h <;> simp
  · rw [if_neg h0]
    exact combination_foldl_eq_choose n k hk

/-- Concrete evaluation of `combination` inside the supported triangle. -/
theorem combination_eval (n k v : Nat) (hk : k ≤ n) (hv : n.choose k = v) :
    combination n k = (v : ℚ) := by
  rw [combination_eq_choose n k hk, hv]

/-- **C1.** For all `0 ≤ k ≤ n`, `combination(n,k)` — computed by the
short-circuit to 1 for `k = 0` or `k = n` and otherwise the left-to-right
running product `Π_(i=1..k) (n-i+1)/i` — equals the binomial coefficient
`n!/(k!(n-k)!)` in exact arithmetic; in particular row 4 of
`generateTable(5)` is `[1,4,6,4,1]`, with sum 16. -/
theorem c1_combination_correct :
    (∀ n k : Nat, k ≤ n →
      combination n k = (n.factorial : ℚ) / ((k.factorial : ℚ) * ((n - k).factorial : ℚ)))
    ∧ (generatePascalTriangle 5).getD 4 [] = [(1 : ℚ), 4, 6, 4, 1]
    ∧ ((generatePascalTriangle 5).getD 4 []).sum = 16 := by
  have hrow : (generatePascalTriangle 5).getD 4 []
      = [combination 4 0, combination 4 1, combination 4 2, combination 4 3, combination 4 4] := by
    simp [generatePascalTriangle, List.range_succ]
  have h0 : combination 4 0 = (1 : ℚ) := combination_eval 4 0 1 (by omega) (by rfl)
  have h1 : combination 4 1 = (4 : ℚ) := combination_eval 4 1 4 (by omega) (by rfl)
  have h2 : combination 4 2 = (6 : ℚ) := combination_eval 4 2 6 (by omega) (by rfl)
  have h3 : combination 4 3 = (4 : ℚ) := combination_eval 4 3 4 (by omega) (by rfl)
  have h4 : combination 4 4 = (1 : ℚ) := combination_eval 4 4 1 (by omega) (by rfl)
  refine ⟨fun n k hk => ?_, ?_, ?_⟩
  · rw [combination_eq_choose n k hk]
    have h := Nat.choose_mul_factorial_mul_factorial hk
    have hden : ((k.factorial : ℚ) * ((n - k).factorial : ℚ)) ≠ 0 := by positivity
    have h2 : (n.choose k : ℚ) * (k.factorial : ℚ) * ((n - k).factorial : ℚ)
        = (n.factorial : ℚ) := by exact_mod_cast h
    rw [eq_div_iff hden, ← mul_assoc]
    exact h2
  · rw [hrow, h0, h1, h2, h3, h4]
  · rw [hrow, h0, h1, h2, h3, h4]
    norm_num

/-- Witness for C1 at `n = 5`, `k = 2`. -/
theorem c1_combination_correct_witness :
    combination 5 2
      = ((Nat.factorial 5 : ℚ)) / ((Nat.factorial 2 : ℚ) * (Nat.factorial (5 - 2) : ℚ)) :=
  c1_combination_correct.1 5 2 (by omega)

/-- **C5.** For every `0 ≤ R ≤ 30`, `generateTable(R)` has exactly `R` rows and
row `n` (for `n < R`) contains exactly `n + 1` coefficients. -/
theorem c5_generateTable_shape :
    ∀ R : Nat, R ≤ 30 →
      (generatePascalTriangle R).length = R
      ∧ ∀ n : Nat, n < R → ((generatePascalTriangle R).getD n []).length = n + 1 := by
  intro R _
  constructor
  · simp [generatePascalTriangle]
  · intro n hn
    have hrow : (generatePascalTriangle R).getD n []
        = (List.range (n + 1)).map (fun k => combination n k) := by
      rw [generatePascalTriangle, List.getD_eq_getElem?_getD, List.getElem?_map,
        List.getElem?_range hn]
      rfl
    rw [hrow]
    simp

/-- Witness for C5 at `R = 5`, `n = 2`. -/
theorem c5_generateTable_shape_witness :
    (generatePascalTriangle 5).length = 5
    ∧ ((generatePascalTriangle 5).getD 2 []).length = 3 :=
  ⟨(c5_generateTable_shape 5 (by omega)).1, (c5_generateTable_shape 5 (by omega)).2 2 (by omega)⟩

/-- **C6.** Symmetry: for all `0 ≤ k ≤ n`, `combination n k = combination n (n - k)`. -/
theorem c6_combination_symmetry :
    ∀ n k : Nat, k ≤ n → combination n k = combination n (n - k) := by
  intro n k hk
  rw [combination_eq_choose n k hk, combination_eq_choose n (n - k) (Nat.sub_le n k)]
  exact_mod_cast (Nat.choose_symm hk).symm

/-- Witness for C6 at `n = 5`, `k = 2`. -/
theorem c6_combination_symmetry_witness :
    combination 5 2 = combination 5 (5 - 2) :=
  c6_combination_symmetry 5 2 (by omega)

/-- **C7.** Pascal recurrence: for all `0 < k < n`,
`combination n k = combination (n-1) (k-1) + combination (n-1) k`
(exact rational arithmetic). -/
theorem c7_pascal_recurrence :
    ∀ n k : Nat, 0 < k → k < n →
      combination n k = combination (n - 1) (k - 1) + combination (n - 1) k := by
  intro n k hk0 hkn
  obtain ⟨m, rfl⟩ : ∃ m, n = m + 1 := ⟨n - 1, by omega⟩
  obtain ⟨j, rfl⟩ : ∃ j, k = j + 1 := ⟨k - 1, by omega⟩
  simp only [Nat.add_sub_cancel]
  rw [combination_eq_choose _ _ (by omega), combination_eq_choose _ _ (by omega),
    combination_eq_choose _ _ (by omega)]
  exact_mod_cast congrArg (Nat.cast : Nat → ℚ) (Nat.choose_succ_succ m j)

/-- Witness for C7 at `n = 5`, `k = 2`. -/
theorem c7_pascal_recurrence_witness :
    combination 5 2 = combination (5 - 1) (2 - 1) + combination (5 - 1) 2 :=
  c7_pascal_recurrence 5 2 (by omega) (by omega)

/-- Folding the `combination` loop body from accumulator `0` stays `0`:
every step multiplies by a factor and divides, and `0 * x / y = 0` in ℚ. -/
theorem combination_foldl_zero (n : Nat) :
    ∀ l : List Nat,
      l.foldl (fun (r : ℚ) (i : Nat) => r * ((n : ℚ) - (i : ℚ) + 1) / (i : ℚ)) 0 = 0 := by
  intro l
  induction l with
  | nil => rfl
  | cons a t ih => simpa using ih

/-- **C10 (amended).** In exact rational arithmetic, for `0 ≤ n < k`,
`combination n k` returns exactly `0`: the running product picks up the factor
`(n - i + 1) = 0` at step `i = n + 1 ≤ k`, so the out-of-domain result is the
mathematically correct `C(n,k) = 0`. Under the source's IEEE-double semantics
this holds only while no intermediate value overflows: for large `n` the
running product reaches Infinity before step `n + 1`, and `Infinity · 0 = NaN`
there, so the function returns NaN — see `c10_float_counterexample` below. -/
theorem c10_combination_out_of_domain_zero :
    ∀ n k : Nat, n < k → combination n k = 0 := by
  intro n k h
  have hk0 : ¬(k = 0 ∨ k = n) := by omega
  unfold combination
  rw [if_neg hk0]
  have hk : k - (n + 1) + (n + 1) = k := by omega
  have hsplit := List.range'_append 1 (n + 1) (k - (n + 1)) 1
  rw [hk] at hsplit
  rw [← hsplit, List.foldl_append, List.range'_concat, List.foldl_append]
  simp only [List.foldl_cons, List.foldl_nil]
  have hz : ((n : ℚ) - ((1 + 1 * n : Nat) : ℚ) + 1) = 0 := by
    push_cast
    ring
  rw [hz, mul_zero, zero_div]
  exact combination_foldl_zero n _

/-- Witness for C10 at `n = 2`, `k = 5`. -/
theorem c10_combination_out_of_domain_zero_witness :
    combination 2 5 = 0 :=
  c10_combination_out_of_domain_zero 2 5 (by omega)

/-- Embeds the computational content of `getNaturalNumberCells()` (src/app.js
lines 1037-1051): `for (let n = 0; n < state.rows; n++) { if (n >= 1) take the
cell with data-n = n, data-k = 1 }`. A rendered cell `(n, k)` exists iff
`k ≤ n < rows` and carries `dataset.value = triangle[n][k] = combination n k`
(render loop, src/app.js lines 455-460); for `k = 1` and `n ≥ 1` the cell
always exists. Each record is `(row, column, value)`. -/
def getNaturalNumberCells (rows : Nat) : List (Nat × Nat × ℚ) :=
  (List.range rows).filterMap
    (fun n => if 1 ≤ n then some (n, 1, combination n 1) else none)

/-- **C8.** For every row count `R`, the natural-number family is exactly the
cells at column `k = 1` for rows `n = 1..R-1` in increasing row order, with
value `n` at each cell — the value sequence `[1, 2, ..., R-1]`; in particular
it is empty for `R < 2`. -/
theorem c8_natural_number_family :
    ∀ R : Nat, getNaturalNumberCells R
      = (List.range' 1 (R - 1)).map (fun (n : Nat) => ((n, 1, (n : ℚ)) : Nat × Nat × ℚ)) := by
  intro R
  induction R with
  | zero => rfl
  | succ R ih =>
    have hstep : getNaturalNumberCells (R + 1)
        = getNaturalNumberCells R
          ++ (if 1 ≤ R then [(R, 1, combination R 1)] else []) := by
      unfold getNaturalNumberCells
      rw [List.range_succ, List.filterMap_append]
      congr 1
      by_cases h1 : 1 ≤ R <;> simp [h1]
    rw [hstep, ih]
    by_cases h1 : 1 ≤ R
    · rw [if_pos h1]
      have hR : R - 1 + 1 = R := by omega
      have hconcat : List.range' 1 R = List.range' 1 (R - 1) ++ [1 + 1 * (R - 1)] := by
        conv_lhs => rw [← hR]
        exact List.range'_concat 1 (R - 1)
      have hval : combination R 1 = (R : ℚ) := by
        rw [combination_eq_choose R 1 h1, Nat.choose_one_right]
      have hidx : 1 + 1 * (R - 1) = R := by omega
      simp only [Nat.add_sub_cancel]
      rw [hconcat, List.map_append, hidx]
      simp [hval]
    · have hR0 : R = 0 := by omega
      subst hR0
      simp [getNaturalNumberCells]

/-- Embeds the computational content of `getTriangularNumberCells()`
(src/app.js lines 1058-1069): `for (let n = 2; n < state.rows; n++)` take the
cell with `data-n = n`, `data-k = 2` (which always exists for `2 ≤ n < rows`),
carrying value `combination n 2`. Each record is `(row, column, value)`. -/
def getTriangularNumberCells (rows : Nat) : List (Nat × Nat × ℚ) :=
  (List.range' 2 (rows - 2)).map (fun n => (n, 2, combination n 2))

/-- **C3 counterexample.** At `R = 3`, `n = 2` the triangular-number family's
cell is `(n = 2, k = 2)` with value `combination 2 2 = 1`, but the claim
requires the `n`-th triangular number `n(n+1)/2 = 3` there. -/
theorem c3_triangular_counterexample :
    (getTriangularNumberCells 3).getD 0 (0, 0, 0) = (2, 2, (1 : ℚ))
    ∧ (1 : ℚ) ≠ (2 : ℚ) * ((2 : ℚ) + 1) / 2 := by
  constructor
  · have hcomb : combination 2 2 = (1 : ℚ) := by
      unfold combination
      rw [if_pos (Or.inr rfl)]
    have hlist : getTriangularNumberCells 3 = [(2, 2, combination 2 2)] := rfl
    rw [hlist, hcomb]
    rfl
  · norm_num

/-- **C3 amended.** For every `R ≥ 3` and every row `2 ≤ n ≤ R-1`, the
triangular-number family's cell at column `k = 2`, row `n` has value
`n(n-1)/2` — the `(n-1)`-st triangular number, not the `n`-th. -/
theorem c3_triangular_amended :
    ∀ R n : Nat, 3 ≤ R → 2 ≤ n → n ≤ R - 1 →
      (getTriangularNumberCells R).getD (n - 2) (0, 0, 0)
        = (n, 2, ((n : ℚ) * ((n : ℚ) - 1)) / 2) := by
  intro R n hR hn hnR
  have hidx : n - 2 < R - 2 := by omega
  have hdvd : 2 ∣ n * (n - 1) := by
    have heven := Nat.even_mul_succ_self (n - 1)
    have hn1 : n - 1 + 1 = n := by omega
    rw [hn1] at heven
    rcases heven with ⟨c, hc⟩
    exact ⟨c, by rw [Nat.mul_comm]; linarith [hc]⟩
  have h2 : 2 * Nat.choose n 2 = n * (n - 1) := by
    rw [Nat.choose_two_right]
    exact Nat.mul_div_cancel' hdvd
  have hval : combination n 2 = ((n : ℚ) * ((n : ℚ) - 1)) / 2 := by
    rw [combination_eq_choose n 2 hn]
    rw [eq_div_iff (by norm_num : (2 : ℚ) ≠ 0)]
    have hcast : ((2 * Nat.choose n 2 : Nat) : ℚ) = ((n * (n - 1) : Nat) : ℚ) := by
      exact_mod_cast congrArg (Nat.cast : Nat → ℚ) h2
    have h1n : 1 ≤ n := by omega
    push_cast [h1n] at hcast
    linarith [hcast]
  rw [getTriangularNumberCells, List.getD_eq_getElem?_getD, List.getElem?_map,
    List.getElem?_range' 2 1 hidx]
  have hrow : 2 + 1 * (n - 2) = n := by omega
  rw [hrow]
  simp [hval]

/-- Witness for the amended C3 at `R = 5`, `n = 3`: the cell is `(3, 2, 3)`. -/
theorem c3_triangular_amended_witness :
    (getTriangularNumberCells 5).getD (3 - 2) (0, 0, 0)
      = (3, 2, ((3 : ℚ) * ((3 : ℚ) - 1)) / 2) :=
  c3_triangular_amended 5 3 (by omega) (by omega) (by omega)

/-- The classical Fibonacci sequence: `F(0) = 0`, `F(1) = 1`,
`F(n+2) = F(n) + F(n+1)`. -/
def fib : Nat → Nat
  | 0 => 0
  | 1 => 1
  | n + 2 => fib n + fib (n + 1)

/-- Embeds the per-diagonal sum computed by `getFibonacciCells()` (src/app.js
lines 909-921): for diagonal index `m`,
`for (let i = 0; i <= m; i++) { n = m - i; k = i; if cell (n,k) exists
  sum += value(n, k) }`. A rendered cell `(n, k)` exists iff `k ≤ n < rows`
(here `n = m - i ≤ m < rows` always, so existence is `i ≤ m - i`), and its
value is `combination (m - i) i`. -/
def diagonalSum (m : Nat) : ℚ :=
  ((List.range (m + 1)).filter (fun i => i ≤ m - i)).foldl
    (fun (s : ℚ) (i : Nat) => s + combination (m - i) i) 0

/-- **C2.** For every row count `1 ≤ R ≤ 30`, some diagonal index `m < R` has
a diagonal sum different from the classical Fibonacci value at that position:
the per-diagonal sums do not reproduce the classical Fibonacci sequence under
the source's pairing (already `m = 0`: the sum is `1` but `F(0) = 0`). -/
theorem c2_diagonal_sums_not_fibonacci :
    ∀ R : Nat, 1 ≤ R → R ≤ 30 → ∃ m : Nat, m < R ∧ diagonalSum m ≠ (fib m : ℚ) := by
  intro R hR _
  refine ⟨0, by omega, ?_⟩
  have h0 : diagonalSum 0 = 0 + combination 0 0 := rfl
  have hc : combination 0 0 = (1 : ℚ) := by
    unfold combination
    rw [if_pos (Or.inl rfl)]
  rw [h0, hc]
  have hf : fib 0 = 0 := rfl
  rw [hf]
  norm_num

/-- Witness for C2 at `R = 5`. -/
theorem c2_diagonal_sums_not_fibonacci_witness :
    ∃ m : Nat, m < 5 ∧ diagonalSum m ≠ (fib m : ℚ) :=
  c2_diagonal_sums_not_fibonacci 5 (by omega) (by omega)

/-- Embeds the numeric triples produced per iteration by
`showBinomialExpansion(row)` (src/app.js lines 394-424): for each `k = 0..row`
the loop computes `coeff = combination(row, k)`, `aExp = row - k`, `bExp = k`;
the surrounding LaTeX string formatting is presentation-layer and out of
scope. Each record is `(coefficient, aExponent, bExponent)`. -/
def expansionTerms (row : Nat) : List (ℚ × Nat × Nat) :=
  (List.range (row + 1)).map (fun k => ((combination row k, row - k, k) : ℚ × Nat × Nat))

/-- **C9.** For every `n ≥ 0`, `expansionTerms n` is the ordered list of
`n + 1` triples `(coefficient(n,k), n-k, k)` for `k = 0..n` with the
coefficient equal to `C(n,k)`; in particular
`expansionTerms 3 = [(1,3,0), (3,2,1), (3,1,2), (1,0,3)]`. -/
theorem c9_expansion_terms :
    (∀ n : Nat, (expansionTerms n).length = n + 1)
    ∧ (∀ n k : Nat, k ≤ n →
        (expansionTerms n).getD k (0, 0, 0) = ((n.choose k : ℚ), n - k, k))
    ∧ expansionTerms 3 = [((1 : ℚ), 3, 0), ((3 : ℚ), 2, 1), ((3 : ℚ), 1, 2), ((1 : ℚ), 0, 3)] := by
  refine ⟨?_, ?_, ?_⟩
  · intro n
    simp [expansionTerms]
  · intro n k hk
    rw [expansionTerms, List.getD_eq_getElem?_getD, List.getElem?_map,
      List.getElem?_range (by omega : k < n + 1)]
    simp [combination_eq_choose n k hk]
  · have e0 : combination 3 0 = (1 : ℚ) := combination_eval 3 0 1 (by omega) (by rfl)
    have e1 : combination 3 1 = (3 : ℚ) := combination_eval 3 1 3 (by omega) (by rfl)
    have e2 : combination 3 2 = (3 : ℚ) := combination_eval 3 2 3 (by omega) (by rfl)
    have e3 : combination 3 3 = (1 : ℚ) := combination_eval 3 3 1 (by omega) (by rfl)
    simp [expansionTerms, List.range_succ, e0, e1, e2, e3]

/-- Witness for C9 at `n = 4`, `k = 2`. -/
theorem c9_expansion_terms_witness :
    (expansionTerms 4).getD 2 (0, 0, 0) = ((Nat.choose 4 2 : ℚ), 4 - 2, 2) :=
  c9_expansion_terms.2.1 4 2 (by omega)

/-- Embeds the trial-division loop of `isPrime` (src/app.js lines 345-348):
`const sqrtNum = Math.sqrt(num); for (let i = 5; i <= sqrtNum; i += 6)
  if (num % i === 0 || num % (i + 2) === 0) return false;` —
for a natural number `i`, the test `i <= Math.sqrt(num)` is `i * i ≤ num`. -/
def isPrimeLoop (num : Nat) (i : Nat) : Bool :=
  if h : i * i ≤ num then
    if num % i = 0 ∨ num % (i + 2) = 0 then false
    else isPrimeLoop num (i + 6)
  else true
termination_by num + 1 - i
decreasing_by
  have hi : i ≤ num := by
    rcases Nat.eq_zero_or_pos i with h0 | h0
    · omega
    · exact le_trans (Nat.le_mul_of_pos_left i h0) h
  omega

/-- Embeds `isPrime(num)` from src/app.js lines 338-350:
`if (num <= 1) return false; if (num <= 3) return true;
if (num % 2 === 0 || num % 3 === 0) return false;` then the 6k±1 loop. -/
def isPrime (num : Nat) : Bool :=
  if num ≤ 1 then false
  else if num ≤ 3 then true
  else if num % 2 = 0 ∨ num % 3 = 0 then false
  else isPrimeLoop num 5

/-- Modelled from the spec's reference definition for C4: primality by trial
division by all integers `d` from 2 up to `√v` (`d * d ≤ v`), with `v ≤ 1`
not prime. The bound `d < v` makes the quantifier decidable; it is implied by
`2 ≤ d` and `d * d ≤ v`. -/
def isPrimeSpec (v : Nat) : Bool :=
  if v ≤ 1 then false
  else decide (∀ d : Nat, d < v → 2 ≤ d → d * d ≤ v → ¬ v % d = 0)

/-- If `num` is prime, the 6k±1 trial-division loop never finds a divisor. -/
theorem isPrimeLoop_eq_true_of_prime :
    ∀ num i : Nat, Nat.Prime num → 5 ≤ i → isPrimeLoop num i = true := by
  intro num i
  induction i using isPrimeLoop.induct num with
  | case1 i h hdiv =>
    intro hp hi5
    exfalso
    rcases hdiv with hd | hd
    · have hdvd : i ∣ num := Nat.dvd_of_mod_eq_zero hd
      rcases hp.eq_one_or_self_of_dvd i hdvd with h1 | h1
      · omega
      · have h5i : 5 * i ≤ i * i := Nat.mul_le_mul_right i (by omega)
        have hle : i * i ≤ i := by omega
        omega
    · have hdvd : (i + 2) ∣ num := Nat.dvd_of_mod_eq_zero hd
      rcases hp.eq_one_or_self_of_dvd (i + 2) hdvd with h1 | h1
      · omega
      · have h5i : 5 * i ≤ i * i := Nat.mul_le_mul_right i (by omega)
        have hle : i * i ≤ i + 2 := by omega
        omega
  | case2 i h hdiv ih =>
    intro hp hi5
    rw [isPrimeLoop, dif_pos h, if_neg hdiv]
    exact ih hp (by omega)
  | case3 i h =>
    intro _ _
    rw [isPrimeLoop, dif_neg h]

/-- If `num` has a divisor `d ≡ ±1 (mod 6)` with `d * d ≤ num` lying at or
beyond the loop counter, the 6k±1 trial-division loop returns `false`. -/
theorem isPrimeLoop_eq_false_of_divisor :
    ∀ num i : Nat, i % 6 = 5 →
      (∃ d : Nat, (d % 6 = 1 ∨ d % 6 = 5) ∧ i ≤ d ∧ d ∣ num ∧ d * d ≤ num) →
      isPrimeLoop num i = false := by
  intro num i
  induction i using isPrimeLoop.induct num with
  | case1 i h hdiv =>
    intro _ _
    rw [isPrimeLoop, dif_pos h, if_pos hdiv]
  | case2 i h hdiv ih =>
    rintro hi6 ⟨d, hd6, hid, hddvd, hdsq⟩
    rw [isPrimeLoop, dif_pos h, if_neg hdiv]
    have hdne1 : d ≠ i := by
      intro he
      exact hdiv (Or.inl (Nat.mod_eq_zero_of_dvd (he ▸ hddvd)))
    have hdne2 : d ≠ i + 2 := by
      intro he
      exact hdiv (Or.inr (Nat.mod_eq_zero_of_dvd (he ▸ hddvd)))
    exact ih (by omega) ⟨d, hd6, by omega, hddvd, hdsq⟩
  | case3 i h =>
    rintro hi6 ⟨d, hd6, hid, hddvd, hdsq⟩
    exact absurd (le_trans (Nat.mul_le_mul hid hid) hdsq) h

/-- The spec's reference trial division decides primality. -/
theorem isPrimeSpec_iff (v : Nat) : isPrimeSpec v = true ↔ Nat.Prime v := by
  unfold isPrimeSpec
  by_cases h1 : v ≤ 1
  · rw [if_pos h1]
    constructor
    · intro h
      exact absurd h (by simp)
    · intro hp
      exact absurd hp.two_le (by omega)
  · rw [if_neg h1, decide_eq_true_iff]
    constructor
    · intro hall
      by_contra hnp
      have hne1 : v ≠ 1 := by omega
      have hpdvd := Nat.minFac_dvd v
      have hpp := Nat.minFac_prime hne1
      have hpsq : Nat.minFac v * Nat.minFac v ≤ v := by
        have hs := Nat.minFac_sq_le_self (by omega : 0 < v) hnp
        rwa [pow_two] at hs
      have h2le := hpp.two_le
      have hlt : Nat.minFac v < v := by
        have h2d : 2 * Nat.minFac v ≤ Nat.minFac v * Nat.minFac v :=
          Nat.mul_le_mul_right _ h2le
        exact lt_of_lt_of_le (by omega : Nat.minFac v < 2 * Nat.minFac v)
          (le_trans h2d hpsq)
      exact hall (Nat.minFac v) hlt h2le hpsq (Nat.mod_eq_zero_of_dvd hpdvd)
    · intro hp d hdlt hd2 hdsq hdmod
      have hdvd : d ∣ v := Nat.dvd_of_mod_eq_zero hdmod
      clear hdsq
      rcases hp.eq_one_or_self_of_dvd d hdvd with h | h <;> omega

/-- The implemented policy (early cases, then the 6k±1 loop) decides
primality. -/
theorem isPrime_iff (v : Nat) : isPrime v = true ↔ Nat.Prime v := by
  unfold isPrime
  by_cases h1 : v ≤ 1
  · rw [if_pos h1]
    constructor
    · intro h
      exact absurd h (by simp)
    · intro hp
      exact absurd hp.two_le (by omega)
  · rw [if_neg h1]
    by_cases h3 : v ≤ 3
    · rw [if_pos h3]
      have hv : v = 2 ∨ v = 3 := by omega
      rcases hv with rfl | rfl
      · simpa using Nat.prime_two
      · simpa using Nat.prime_three
    · rw [if_neg h3]
      by_cases h23 : v % 2 = 0 ∨ v % 3 = 0
      · rw [if_pos h23]
        constructor
        · intro h
          exact absurd h (by simp)
        · intro hp
          exfalso
          rcases h23 with h2 | h2
          · have hdvd : (2 : Nat) ∣ v := Nat.dvd_of_mod_eq_zero h2
            rcases hp.eq_one_or_self_of_dvd 2 hdvd with h | h <;> omega
          · have hdvd : (3 : Nat) ∣ v := Nat.dvd_of_mod_eq_zero h2
            rcases hp.eq_one_or_self_of_dvd 3 hdvd with h | h <;> omega
      · rw [if_neg h23]
        push_neg at h23
        obtain ⟨hm2, hm3⟩ := h23
        constructor
        · intro hloop
          by_contra hnp
          have hne1 : v ≠ 1 := by omega
          have hpdvd := Nat.minFac_dvd v
          have hpp := Nat.minFac_prime hne1
          have hpsq : Nat.minFac v * Nat.minFac v ≤ v := by
            have hs := Nat.minFac_sq_le_self (by omega : 0 < v) hnp
            rwa [pow_two] at hs
          have hp2 : Nat.minFac v ≠ 2 := by
            intro he
            exact hm2 (Nat.mod_eq_zero_of_dvd (he ▸ hpdvd))
          have hp3 : Nat.minFac v ≠ 3 := by
            intro he
            exact hm3 (Nat.mod_eq_zero_of_dvd (he ▸ hpdvd))
          have hpm2 : Nat.minFac v % 2 = 1 := by
            rcases Nat.mod_two_eq_zero_or_one (Nat.minFac v) with h | h
            · exfalso
              have hdvd : (2 : Nat) ∣ Nat.minFac v := Nat.dvd_of_mod_eq_zero h
              rcases hpp.eq_one_or_self_of_dvd 2 hdvd with h' | h' <;> omega
            · exact h
          have hpm3 : Nat.minFac v % 3 ≠ 0 := by
            intro h
            have hdvd : (3 : Nat) ∣ Nat.minFac v := Nat.dvd_of_mod_eq_zero h
            rcases hpp.eq_one_or_self_of_dvd 3 hdvd with h' | h' <;> omega
          have h2le := hpp.two_le
          have hp5 : 5 ≤ Nat.minFac v := by omega
          have hfalse := isPrimeLoop_eq_false_of_divisor v 5 (by norm_num)
            ⟨Nat.minFac v, by omega, hp5, hpdvd, hpsq⟩
          rw [hloop] at hfalse
          exact Bool.noConfusion hfalse
        · intro hp
          exact isPrimeLoop_eq_true_of_prime v 5 hp (by norm_num)

/-- **C4.** `isPrime` agrees with the spec's reference trial division
(by all integers from 2 up to `√v`, with `v ≤ 1` not prime) for every
natural number `v` — in particular for every `v` in `[0, 1000]`: the
implemented policy (`v ≤ 1` → false, `v ∈ {2,3}` → true, multiples of 2 or 3
→ false, then trial division by `6k±1` up to `√v`) is equivalent to the
reference. -/
theorem c4_isPrime_matches_reference : ∀ v : Nat, isPrime v = isPrimeSpec v := by
  intro v
  cases hs : isPrimeSpec v with
  | true => exact (isPrime_iff v).mpr ((isPrimeSpec_iff v).mp hs)
  | false =>
    cases hp : isPrime v with
    | false => rfl
    | true =>
      exfalso
      have h := (isPrimeSpec_iff v).mpr ((isPrime_iff v).mp hp)
      rw [hs] at h
      exact Bool.noConfusion h

/-- Binary length of a natural number (`bitlen 0 = 0`, `2^(bitlen n - 1) ≤ n
< 2^(bitlen n)` for `n > 0`), by structural recursion on a fuel argument so
that the kernel can evaluate it. -/
def bitlenAux : Nat → Nat → Nat
  | 0, _ => 0
  | _ + 1, 0 => 0
  | fuel + 1, n => bitlenAux fuel (n / 2) + 1

/-- Fuel 1300 exceeds the bit length of every quantity arising below:
binary64 significands are `< 2^53`, their products `< 2^106`, and scale
shifts are bounded by the exponent range width `1074 + 972`. -/
def bitlen (n : Nat) : Nat := bitlenAux 1300 n

/-- An IEEE-754 binary64 value, the number type JavaScript computes with.
A finite value is `(-1)^sign * mant * 2^exp` in canonical form: zero is
`(sign, 0, 0)`; a normal number has `2^52 ≤ mant < 2^53` and
`-1074 ≤ exp ≤ 971`; a subnormal has `0 < mant < 2^52` and `exp = -1074`. -/
inductive JSNum where
  | finite (sign : Bool) (mant : Nat) (exp : Int)
  | inf (sign : Bool)
  | nan
deriving DecidableEq

/-- Final step of rounding: renormalize a carry out of the 53-bit
significand (`m = 2^53` becomes `2^52` one binade up) and overflow to
infinity when the result exceeds the largest finite exponent. -/
def finishRound (s : Bool) (m : Nat) (u : Int) : JSNum :=
  if m = 0 then JSNum.finite s 0 0
  else
    let m2 : Nat := if m = 2 ^ 53 then 2 ^ 52 else m
    let u2 : Int := if m = 2 ^ 53 then u + 1 else u
    if 971 < u2 then JSNum.inf s else JSNum.finite s m2 u2

/-- Round the positive rational `(p / q) * 2^e` (`p, q > 0`) to binary64,
to nearest with ties to even, with gradual underflow and overflow to
infinity. The provisional ulp exponent `u` places the 53-bit significand
(clamped at `-1074` for subnormals); the value is scaled to `N / D` so that
the integer quotient `Q` carries the candidate significand with `52` to `54`
bits, and the remainder `R` is the sticky information below it. When
`Q < 2^53` the rounding position is at the integer: round up iff the
fraction `R/D` exceeds one half, or equals it exactly with `Q` odd. When
`Q ≥ 2^53` (then `Q < 2^54`) the dropped low bit of `Q` is the half,
and `R ≠ 0` or an odd kept significand breaks the tie upward. -/
def roundFinite (s : Bool) (p q : Nat) (e : Int) : JSNum :=
  let bp := bitlen p
  let bq := bitlen q
  let u0 : Int := (bp : Int) - (bq : Int) + e - 53
  let u : Int := if u0 < -1074 then -1074 else u0
  let sft : Int := e - u
  let N : Nat := if 0 ≤ sft then p <<< sft.toNat else p
  let D : Nat := if 0 ≤ sft then q else q <<< (- sft).toNat
  let Q := N / D
  let R := N % D
  if Q < 2 ^ 53 then
    let up : Bool := decide (D < 2 * R) || (decide (2 * R = D) && decide (Q % 2 = 1))
    finishRound s (if up then Q + 1 else Q) u
  else
    let m0 := Q / 2
    let up : Bool := decide (Q % 2 = 1) && (decide (R ≠ 0) || decide (m0 % 2 = 1))
    finishRound s (if up then m0 + 1 else m0) (u + 1)

/-- The binary64 value of an integer (exact for `|v| < 2^53`; the integer
operands `n - i + 1` and `i` of the source's loop are far below that). -/
def jsOfInt (v : Int) : JSNum :=
  if v = 0 then JSNum.finite false 0 0
  else roundFinite (decide (v < 0)) v.natAbs 1 0

/-- IEEE-754 binary64 multiplication, the semantics of the source's `*`:
NaN propagates, `Infinity * 0 = NaN`, infinities and zeros multiply signs,
and finite products are rounded to nearest-even. -/
def jsMul : JSNum → JSNum → JSNum
  | JSNum.nan, _ => JSNum.nan
  | _, JSNum.nan => JSNum.nan
  | JSNum.inf s1, JSNum.inf s2 => JSNum.inf (xor s1 s2)
  | JSNum.inf s1, JSNum.finite s2 m _ =>
      if m = 0 then JSNum.nan else JSNum.inf (xor s1 s2)
  | JSNum.finite s1 m _, JSNum.inf s2 =>
      if m = 0 then JSNum.nan else JSNum.inf (xor s1 s2)
  | JSNum.finite s1 m1 e1, JSNum.finite s2 m2 e2 =>
      if m1 = 0 ∨ m2 = 0 then JSNum.finite (xor s1 s2) 0 0
      else roundFinite (xor s1 s2) (m1 * m2) 1 (e1 + e2)

/-- IEEE-754 binary64 division, the semantics of the source's `/`:
NaN propagates, `Infinity / Infinity = NaN` and `0 / 0 = NaN`, division by
zero gives a signed infinity, and finite quotients are rounded to
nearest-even. -/
def jsDiv : JSNum → JSNum → JSNum
  | JSNum.nan, _ => JSNum.nan
  | _, JSNum.nan => JSNum.nan
  | JSNum.inf _, JSNum.inf _ => JSNum.nan
  | JSNum.inf s1, JSNum.finite s2 _ _ => JSNum.inf (xor s1 s2)
  | JSNum.finite s1 _ _, JSNum.inf s2 => JSNum.finite (xor s1 s2) 0 0
  | JSNum.finite s1 m1 e1, JSNum.finite s2 m2 e2 =>
      if m2 = 0 then (if m1 = 0 then JSNum.nan else JSNum.inf (xor s1 s2))
      else if m1 = 0 then JSNum.finite (xor s1 s2) 0 0
      else roundFinite (xor s1 s2) m1 m2 (e1 - e2)

/-- The loop body of `combination` (src/app.js line 365) under the source's
actual IEEE-double semantics: `result = result * (n - i + 1) / i`, i.e.
`(result * (n - i + 1)) / i`; the integer operand `n - i + 1` (negative for
`i > n + 1`) is exact in binary64 at these magnitudes. -/
def combinationFloatStep (n : Nat) (result : JSNum) (i : Nat) : JSNum :=
  jsDiv (jsMul result (jsOfInt ((n : Int) - (i : Int) + 1))) (jsOfInt (i : Int))

/-- Embeds `combination(n, k)` from src/app.js lines 358-368 under IEEE-754
binary64 arithmetic — the same algorithm as the ℚ-valued `combination`, but
with the source's floating-point `*` and `/`. Used to settle what the source
actually returns outside the exact-arithmetic idealization. -/
def combinationFloat (n k : Nat) : JSNum :=
  if k = 0 ∨ k = n then jsOfInt 1
  else (List.range' 1 k).foldl (combinationFloatStep n) (jsOfInt 1)

/-- Splitting a left fold over a `List.range'` block at an intermediate
point. -/
theorem foldl_range'_split (f : JSNum → Nat → JSNum) (v : JSNum) (a m n t b : Nat)
    (ht : t = m + n) (hb : b = a + m) :
    (List.range' a t).foldl f v
      = (List.range' b n).foldl f ((List.range' a m).foldl f v) := by
  subst ht hb
  have h := List.range'_append a m n 1
  rw [one_mul] at h
  rw [Nat.add_comm m n, ← h, List.foldl_append]

set_option maxRecDepth 20000 in
/-- Within the exactly representable range the binary64 evaluation agrees
with the exact one: `combinationFloat 5 2 = 10` and `combinationFloat 4 2 = 6`. -/
theorem combinationFloat_exact_in_range :
    combinationFloat 5 2 = jsOfInt 10 ∧ combinationFloat 4 2 = jsOfInt 6 := by
  constructor <;> decide

set_option maxRecDepth 20000 in
/-- First 100 iterations of `combination(2000, 2001)` in binary64: the
running product reaches `C(2000,100)` up to rounding. -/
theorem c10FloatChunk1 :
    (List.range' 1 100).foldl (combinationFloatStep 2000) (jsOfInt 1)
      = JSNum.finite false 5109250015088446 516 := by decide

set_option maxRecDepth 20000 in
/-- Iterations 101-200: still finite. -/
theorem c10FloatChunk2 :
    (List.range' 101 100).foldl (combinationFloatStep 2000)
      (JSNum.finite false 5109250015088446 516)
      = JSNum.finite false 8514863135422378 880 := by decide

set_option maxRecDepth 20000 in
/-- Iterations 201-300: the running product overflows to `Infinity`
(the exact value passes `2^1024` near `i = 235`). -/
theorem c10FloatChunk3 :
    (List.range' 201 100).foldl (combinationFloatStep 2000)
      (JSNum.finite false 8514863135422378 880) = JSNum.inf false := by decide

set_option maxRecDepth 20000 in
/-- Each later block of 100 iterations up to `i = 2000` keeps the
accumulator at `Infinity`: every factor `2000 - i + 1` is still positive. -/
theorem c10FloatChunkInf :
    ∀ a ∈ [301, 401, 501, 601, 701, 801, 901, 1001, 1101, 1201, 1301, 1401, 1501, 1601, 1701, 1801, 1901],
      (List.range' a 100).foldl (combinationFloatStep 2000) (JSNum.inf false)
        = JSNum.inf false := by decide

set_option maxRecDepth 2000 in
/-- The final iteration `i = 2001` multiplies `Infinity` by the factor
`2000 - 2001 + 1 = 0`, and `Infinity * 0 = NaN`. -/
theorem c10FloatChunkLast :
    (List.range' 2001 1).foldl (combinationFloatStep 2000) (JSNum.inf false)
      = JSNum.nan := by decide

/-- **C10 counterexample.** At the concrete input `n = 2000`, `k = 2001`
(with `0 ≤ n < k`), the source's IEEE-double computation returns NaN, not
exactly `0`: the running product overflows to `Infinity` before step
`i = n + 1`, and `Infinity * 0 = NaN` there. -/
theorem c10_float_counterexample :
    combinationFloat 2000 2001 = JSNum.nan ∧ JSNum.nan ≠ jsOfInt 0 := by
  constructor
  · have h0 : combinationFloat 2000 2001
        = (List.range' 1 2001).foldl (combinationFloatStep 2000) (jsOfInt 1) := by
      unfold combinationFloat
      rw [if_neg (by omega)]
    rw [h0]
    rw [foldl_range'_split _ _ 1 100 1901 2001 101 (by norm_num) (by norm_num),
      c10FloatChunk1]
    rw [foldl_range'_split _ _ 101 100 1801 1901 201 (by norm_num) (by norm_num),
      c10FloatChunk2]
    rw [foldl_range'_split _ _ 201 100 1701 1801 301 (by norm_num) (by norm_num),
      c10FloatChunk3]
    rw [foldl_range'_split _ _ 301 100 1601 1701 401 (by norm_num) (by norm_num),
      c10FloatChunkInf 301 (by decide)]
    rw [foldl_range'_split _ _ 401 100 1501 1601 501 (by norm_num) (by norm_num),
      c10FloatChunkInf 401 (by decide)]
    rw [foldl_range'_split _ _ 501 100 1401 1501 601 (by norm_num) (by norm_num),
      c10FloatChunkInf 501 (by decide)]
    rw [foldl_range'_split _ _ 601 100 1301 1401 701 (by norm_num) (by norm_num),
      c10FloatChunkInf 601 (by decide)]
    rw [foldl_range'_split _ _ 701 100 1201 1301 801 (by norm_num) (by norm_num),
      c10FloatChunkInf 701 (by decide)]
    rw [foldl_range'_split _ _ 801 100 1101 1201 901 (by norm_num) (by norm_num),
      c10FloatChunkInf 801 (by decide)]
    rw [foldl_range'_split _ _ 901 100 1001 1101 1001 (by norm_num) (by norm_num),
      c10FloatChunkInf 901 (by decide)]
    rw [foldl_range'_split _ _ 1001 100 901 1001 1101 (by norm_num) (by norm_num),
      c10FloatChunkInf 1001 (by decide)]
    rw [foldl_range'_split _ _ 1101 100 801 901 1201 (by norm_num) (by norm_num),
      c10FloatChunkInf 1101 (by decide)]
    rw [foldl_range'_split _ _ 1201 100 701 801 1301 (by norm_num) (by norm_num),
      c10FloatChunkInf 1201 (by decide)]
    rw [foldl_range'_split _ _ 1301 100 601 701 1401 (by norm_num) (by norm_num),
      c10FloatChunkInf 1301 (by decide)]
    rw [foldl_range'_split _ _ 1401 100 501 601 1501 (by norm_num) (by norm_num),
      c10FloatChunkInf 1401 (by decide)]
    rw [foldl_range'_split _ _ 1501 100 401 501 1601 (by norm_num) (by norm_num),
      c10FloatChunkInf 1501 (by decide)]
    rw [foldl_range'_split _ _ 1601 100 301 401 1701 (by norm_num) (by norm_num),
      c10FloatChunkInf 1601 (by decide)]
    rw [foldl_range'_split _ _ 1701 100 201 301 1801 (by norm_num) (by norm_num),
      c10FloatChunkInf 1701 (by decide)]
    rw [foldl_range'_split _ _ 1801 100 101 201 1901 (by norm_num) (by norm_num),
      c10FloatChunkInf 1801 (by decide)]
    rw [foldl_range'_split _ _ 1901 100 1 101 2001 (by norm_num) (by norm_num),
      c10FloatChunkInf 1901 (by decide)]
    exact c10FloatChunkLast
  · decide
